import Mathlib

/-!
Verification of the ai4orgWebScraper repository's core pipeline against its
specification.  Python strings are modelled as `List Char`; Python's mutable
visited set as an explicitly threaded `List`; fallible external calls
(HTTP fetch, headless browser, the OpenAI APIs) as `Except`/abstract
parameters.  Each definition is a shallow embedding of the named source
function; comments cite the file and lines it comes from.
-/

/-! ### String primitives (Python `str.split("\n\n")`, `str.strip`, `"sep".join`) -/

/-- Python whitespace for `str.strip()` restricted to the ASCII range
(space, tab, newline, carriage return, vertical tab, form feed). -/
def isPySpace (c : Char) : Bool :=
  c == ' ' || c == '\t' || c == '\n' || c == '\r' || c == '\x0B' || c == '\x0C'

/-- Python `s.strip()`: drop whitespace from both ends. -/
def pyStrip (s : List Char) : List Char :=
  ((s.dropWhile isPySpace).reverse.dropWhile isPySpace).reverse

/-- Python `s.split("\n\n")`: split on non-overlapping occurrences of the
two-character separator, scanning left to right. -/
def splitOn2 : List Char → List (List Char)
  | [] => [[]]
  | '\n' :: '\n' :: rest => [] :: splitOn2 rest
  | c :: rest =>
    match splitOn2 rest with
    | [] => [[c]]
    | h :: t => (c :: h) :: t

/-- Python `"\n\n".join(parts)`. -/
def joinSep2 : List (List Char) → List Char
  | [] => []
  | [p] => p
  | p :: ps => p ++ '\n' :: '\n' :: joinSep2 ps

/-- Python `"\n".join(parts)`. -/
def joinNL : List (List Char) → List Char
  | [] => []
  | [p] => p
  | p :: ps => p ++ '\n' :: joinNL ps

/-- True when a string is nonempty and neither its first nor its last
character is whitespace (so `pyStrip` leaves it unchanged). -/
def noEdgeSpace (p : List Char) : Bool :=
  match p.head?, p.getLast? with
  | some a, some b => !isPySpace a && !isPySpace b
  | _, _ => false

/-! ### `split_text_into_chunks` — src/chat_wrapper.py lines 91-124 -/

/-- First pass of `split_text_into_chunks`: accumulate paragraphs into
`cur` (the running `current_chunk`), closing a chunk when the candidate
would exceed the budget and the running chunk is nonempty. -/
def firstPass (chunkSize : Nat) : List (List Char) → List Char → List (List Char)
  | [], cur => if cur.isEmpty then [] else [pyStrip cur]
  | para :: rest, cur =>
    let candidate := if cur.isEmpty then para else cur ++ '\n' :: '\n' :: para
    if chunkSize < candidate.length ∧ ¬cur.isEmpty then
      pyStrip cur :: firstPass chunkSize rest para
    else
      firstPass chunkSize rest candidate

/-- Index of the last `'\n'` in a string, if any — Python
`chunk.rfind("\n", start, end)` relative to the window start. -/
def lastNewlineIdx : List Char → Option Nat
  | [] => none
  | c :: rest =>
    match lastNewlineIdx rest with
    | some i => some (i + 1)
    | none => if c == '\n' then some 0 else none

/-- Number of characters the second pass of `split_text_into_chunks` cuts
off in one iteration: the last newline position inside the next
`chunk_size` characters if it is positive, otherwise `chunk_size` itself
(only evaluated when more than `chunk_size` characters remain). -/
def rawStep (chunkSize : Nat) (s : List Char) : Nat :=
  match lastNewlineIdx (s.take chunkSize) with
  | some i => if 1 ≤ i then i else chunkSize
  | none => chunkSize

/-- Second-pass loop of `split_text_into_chunks` on one oversized chunk,
expressed on the remaining suffix.  `fuel` bounds the iteration count;
`fuel = s.length` is always sufficient when `chunkSize ≥ 1` because each
iteration consumes at least one character.  (When `chunkSize = 0` the
Python loop does not terminate; the model returns `[]` in that case.) -/
def hardSplitGo (chunkSize : Nat) : Nat → List Char → List (List Char)
  | _, [] => []
  | 0, _ :: _ => []
  | fuel + 1, c :: cs =>
    if (c :: cs).length ≤ chunkSize then [pyStrip (c :: cs)]
    else
      pyStrip ((c :: cs).take (rawStep chunkSize (c :: cs))) ::
        hardSplitGo chunkSize fuel ((c :: cs).drop (rawStep chunkSize (c :: cs)))

/-- `split_text_into_chunks(text, chunk_size)` — src/chat_wrapper.py 91-124:
paragraph accumulation followed by hard-splitting any oversized chunk at
the last newline within the budget window. -/
def split_text_into_chunks (text : List Char) (chunkSize : Nat) : List (List Char) :=
  (firstPass chunkSize (splitOn2 text) []).flatMap fun chunk =>
    if chunk.length ≤ chunkSize then [chunk]
    else hardSplitGo chunkSize chunk.length chunk

/-! ### `retrieve_relevant_context` — src/chat_wrapper.py lines 157-184

`get_embedding` is an external API call and `cosine_similarity`
(lines 137-143) is floating-point numpy arithmetic over externally
produced vectors; both are abstracted into a similarity function
parameter `sim` applied to the query embedding and each stored embedding,
exactly as the source applies `cosine_similarity(query_embedding,
item["embedding"])`.  Scores are modelled as exact rationals. -/

/-- One entry of the vector store built by `build_vector_store`. -/
structure VItem where
  embedding : List ℚ
  text : List Char
deriving DecidableEq

/-- The `scored_chunks` list: one `(score, text)` pair per stored item,
in store order. -/
def scoredChunks (sim : List ℚ → List ℚ → ℚ) (queryEmb : List ℚ)
    (store : List VItem) : List (ℚ × List Char) :=
  store.map fun item => (sim queryEmb item.embedding, item.text)

/-- Stable descending insertion: place `a` before the first element whose
key is not larger.  Python's `list.sort(key=..., reverse=True)` is a
stable descending sort; a stable sort for a fixed total preorder is a
unique function, and insertion sort computes it. -/
def insertDesc (key : α → ℚ) (a : α) : List α → List α
  | [] => [a]
  | b :: bs => if key b ≤ key a then a :: b :: bs else b :: insertDesc key a bs

/-- Stable descending sort (model of `scored_chunks.sort(key=lambda x: x[0],
reverse=True)`). -/
def sortDescBy (key : α → ℚ) : List α → List α
  | [] => []
  | a :: as' => insertDesc key a (sortDescBy key as')

/-- The `(score, text)` pairs that survive sorting, thresholding and the
`top_k` cut, in output order. -/
def retrievedPairs (sim : List ℚ → List ℚ → ℚ) (queryEmb : List ℚ)
    (store : List VItem) (topK : Nat) (thr : ℚ) : List (ℚ × List Char) :=
  (((sortDescBy Prod.fst (scoredChunks sim queryEmb store)).filter
      fun p => thr ≤ p.1).take topK)

/-- `retrieve_relevant_context` — sort descending, filter by threshold,
take `top_k`, join the texts with `"\n"`. -/
def retrieve_relevant_context (sim : List ℚ → List ℚ → ℚ) (queryEmb : List ℚ)
    (store : List VItem) (topK : Nat) (thr : ℚ) : List Char :=
  joinNL ((retrievedPairs sim queryEmb store topK thr).map Prod.snd)

/-- Modelled from the spec: "discard chunks below a similarity threshold,
sort descending, and return the concatenation of the top-K surviving
chunks" — filter first, then sort, then cut, then join.  Used as the
specification side of the refinement claim C4. -/
def retrieveContextSpec (sim : List ℚ → List ℚ → ℚ) (queryEmb : List ℚ)
    (store : List VItem) (topK : Nat) (thr : ℚ) : List Char :=
  joinNL ((((sortDescBy Prod.fst ((scoredChunks sim queryEmb store).filter
      fun p => thr ≤ p.1)).take topK).map Prod.snd))

/-! ### `recursive_extract` — src/web_scraper.py lines 266-294

The network and the HTML parser are abstracted into a `Web` environment:
`extract` is the record `extract_article_content` produces for a URL,
`soup` is `get_soup` (`none` on fetch failure, otherwise the page's anchor
hrefs in document order), `join` is `urljoin` and `netloc` is
`urlparse(...).netloc`.  The mutable `visited` set is threaded explicitly;
the third component of each result is the trace of URLs on which
`extract_article_content` was invoked, in call order. -/

/-- Abstract web environment for the recursive crawler. -/
structure Web (Url : Type) where
  extract : Url → List Char
  soup : Url → Option (List Url)
  join : Url → Url → Url
  netloc : Url → List Char

/-- The tree of page records produced by one crawl (`page_data` with its
optional `sub_pages` list). -/
inductive PageRecord (Url : Type) where
  | mk (url : Url) (info : List Char) (subs : List (PageRecord Url))

mutual

/-- Depth of a record tree: a leaf has depth 0, each nesting level adds 1. -/
def PageRecord.depth : PageRecord Url → Nat
  | .mk _ _ subs => PageRecord.depthList subs

/-- Maximum over `p.depth + 1` for records in a list (0 for an empty list). -/
def PageRecord.depthList : List (PageRecord Url) → Nat
  | [] => 0
  | p :: ps => max (p.depth + 1) (PageRecord.depthList ps)

end

/-- Depth of an optional record (0 for `none`). -/
def depthOpt : Option (PageRecord Url) → Nat
  | none => 0
  | some pr => pr.depth

mutual

/-- Body of `recursive_extract`, parametrised by the remaining recursion
budget `fuel = max_depth - current_depth` (the code recurses exactly when
`current_depth < max_depth`, passing `current_depth + 1`, which is
`fuel > 0` passing `fuel - 1`).  Returns the produced record (`none` iff
the URL was already visited), the updated visited set, and the trace of
extracted URLs. -/
def recExtractAux [DecidableEq Url] (w : Web Url) (fuel : Nat) (url : Url)
    (visited : List Url) : Option (PageRecord Url) × List Url × List Url :=
  if url ∈ visited then (none, visited, [])
  else
    match fuel with
    | 0 => (some (.mk url (w.extract url) []), url :: visited, [url])
    | fuel' + 1 =>
      match w.soup url with
      | none => (some (.mk url (w.extract url) []), url :: visited, [url])
      | some hrefs =>
        (some (.mk url (w.extract url) (recChildrenAux w fuel' url hrefs (url :: visited)).1),
          (recChildrenAux w fuel' url hrefs (url :: visited)).2.1,
          url :: (recChildrenAux w fuel' url hrefs (url :: visited)).2.2)
termination_by (fuel, 0)

/-- The `for link in links` loop of `recursive_extract`: resolve each href,
keep same-origin targets not yet visited, recurse, and collect non-`none`
results as `sub_pages`. -/
def recChildrenAux [DecidableEq Url] (w : Web Url) (fuel : Nat) (base : Url)
    (hrefs : List Url) (visited : List Url) :
    List (PageRecord Url) × List Url × List Url :=
  match hrefs with
  | [] => ([], visited, [])
  | href :: rest =>
    if w.netloc (w.join base href) = w.netloc base ∧ w.join base href ∉ visited then
      ((match (recExtractAux w fuel (w.join base href) visited).1 with
        | some pr =>
          pr :: (recChildrenAux w fuel base rest
            (recExtractAux w fuel (w.join base href) visited).2.1).1
        | none =>
          (recChildrenAux w fuel base rest
            (recExtractAux w fuel (w.join base href) visited).2.1).1),
        (recChildrenAux w fuel base rest
          (recExtractAux w fuel (w.join base href) visited).2.1).2.1,
        (recExtractAux w fuel (w.join base href) visited).2.2 ++
          (recChildrenAux w fuel base rest
            (recExtractAux w fuel (w.join base href) visited).2.1).2.2)
    else
      recChildrenAux w fuel base rest visited
termination_by (fuel, hrefs.length + 1)

end

/-- `recursive_extract(url, current_depth, max_depth, visited)` —
src/web_scraper.py lines 266-294. -/
def recursive_extract [DecidableEq Url] (w : Web Url) (url : Url)
    (currentDepth maxDepth : Nat) (visited : List Url) :
    Option (PageRecord Url) × List Url × List Url :=
  recExtractAux w (maxDepth - currentDepth) url visited

/-! ### `extract_article_content` — src/web_scraper.py lines 18-70

The HTTP response and the JS fallback (`web_scraper_js.
extract_article_content_js`, a Selenium run) are abstracted as `Except`
values: `.error` means the corresponding Python code raised.  The whole
body sits inside one `try`, whose handler returns an error record, so any
exception — including one raised by the JS fallback — becomes a record. -/

/-- One record of the list `extract_article_content` returns. -/
inductive ArticleRecord where
  | page (url title content : List Char)
  | err (url msg : List Char)
deriving DecidableEq

/-- Abstraction of a Stage-1 HTTP response: status plus the title and
paragraph text the HTML extraction would produce on a 200. -/
structure PageResp where
  status : Nat
  title : List Char
  content : List Char

/-- The f-string `f"Status code {response.status_code}"`. -/
def statusCodeMsg (n : Nat) : List Char :=
  ("Status code ".toList) ++ (Nat.repr n).toList

/-- `extract_article_content(url)` modelled on its fetch outcome `resp`
and the outcome `js` of the JS fallback (invoked only on status 403). -/
def extract_article_content (url : List Char) (resp : Except (List Char) PageResp)
    (js : Except (List Char) (List ArticleRecord)) : List ArticleRecord :=
  match resp with
  | .error e => [.err url e]
  | .ok r =>
    if r.status = 200 then [.page url r.title r.content]
    else if r.status = 403 then
      match js with
      | .ok recs => recs
      | .error e => [.err url e]
    else [.err url (statusCodeMsg r.status)]

/-! ### `extract_text_from_url` Stage 1 and the Selenium trigger —
src/crawl_extractor.py lines 30-96 -/

/-- Stage-1 response abstraction for the crawl extractor: status plus the
`<title>` text and the page's `<p>` texts. -/
structure CrawlResp where
  status : Nat
  title : List Char
  paragraphs : List (List Char)

/-- The value of `extracted_text` after the Stage-1 `try` block of
`extract_text_from_url`: `title + "\n" + page_text` on a 200, the string
`f"Error fetching {url}: {e}"` when the fetch raised, and the unchanged
initial `""` on any other status. -/
def stage1Text (url : List Char) (resp : Except (List Char) CrawlResp) : List Char :=
  match resp with
  | .error e => ("Error fetching ".toList) ++ url ++ (": ".toList) ++ e
  | .ok r =>
    if r.status = 200 then r.title ++ '\n' :: joinNL r.paragraphs
    else []

/-- The guard `if len(extracted_text) < 100:` that decides whether the
Selenium rendered fetch is attempted. -/
def seleniumAttempted (url : List Char) (resp : Except (List Char) CrawlResp) : Bool :=
  (stage1Text url resp).length < 100

/-! ### The debug-port pool in the Selenium fallback —
src/crawl_extractor.py lines 22-27 and 55-96

`port_queue` is a FIFO queue, modelled as a list whose head is the next
port handed out and where `put` appends at the tail.  Inside the fallback
`try`, the code takes a port, launches the browser, and only on the
normal path executes `port_queue.put(remote_port)`; the `except` handler
appends error text but does not return the port.  `browserRaises` is true
when any statement between the checkout and the `put` raises (e.g.
`webdriver.Chrome` failing to start). -/

/-- Final state of the port pool after one run of the Selenium fallback
block.  An empty pool makes `port_queue.get()` block forever in Python;
the model returns the pool unchanged in that unreachable case. -/
def seleniumFallbackPool (browserRaises : Bool) (pool : List Nat) : List Nat :=
  match pool with
  | [] => []
  | p :: rest => if browserRaises then rest else rest ++ [p]

/-! ### PDF extraction — src/pdf_extractor.py lines 32-46, 48-64, 79-103

`pdfplumber` page parsing, the HTTP download and the OCR run are external;
the model takes the per-page native text-layer strings (empty for a page
whose `extract_text()` returned `None`/`""`) and the OCR stage's output as
inputs.  The float division `alpha_count / total > threshold` with the
default `threshold = 0.1` is modelled exactly over ℚ as
`10 * alpha_count > total`. -/

/-- Count of alphanumeric characters (Python `c.isalnum()` over ASCII). -/
def alnumCount (s : List Char) : Nat := (s.filter fun c => c.isAlphanum).length

/-- `is_text_valid(text)` with the default threshold 0.1. -/
def is_text_valid (text : List Char) : Bool :=
  if (pyStrip text).length = 0 then false
  else decide ((pyStrip text).length < 10 * alnumCount (pyStrip text))

/-- The raw accumulation loop of `extract_native_text_from_pdf_bytes`:
append `page_text + "\n"` for each page whose text is non-falsy. -/
def nativeRaw (pages : List (List Char)) : List Char :=
  pages.foldl (fun acc p => if p.isEmpty then acc else acc ++ p ++ ['\n']) []

/-- `extract_native_text_from_pdf_bytes`: strip the accumulated text and
return it only if it is non-falsy, longer than 50 characters, and passes
`is_text_valid`; otherwise return `""`. -/
def extract_native_text_from_pdf_bytes (pages : List (List Char)) : List Char :=
  if ¬(pyStrip (nativeRaw pages)).isEmpty ∧ 50 < (pyStrip (nativeRaw pages)).length ∧
      is_text_valid (pyStrip (nativeRaw pages)) then
    pyStrip (nativeRaw pages)
  else []

/-- `extract_text_from_pdf_url` after a successful download: accept the
native text-layer result if it passes the length/validity check, else
return the OCR stage's output. -/
def extract_text_from_pdf_url (pages : List (List Char)) (ocr : List Char) : List Char :=
  if ¬(extract_native_text_from_pdf_bytes pages).isEmpty ∧
      50 < (extract_native_text_from_pdf_bytes pages).length ∧
      is_text_valid (extract_native_text_from_pdf_bytes pages) then
    extract_native_text_from_pdf_bytes pages
  else ocr

/-! ### Lemmas about `pyStrip`, `splitOn2`, `joinSep2` -/

theorem pyStrip_length_le (s : List Char) : (pyStrip s).length ≤ s.length := by
  unfold pyStrip
  calc ((s.dropWhile isPySpace).reverse.dropWhile isPySpace).reverse.length
      = ((s.dropWhile isPySpace).reverse.dropWhile isPySpace).length := by
        simp
    _ ≤ (s.dropWhile isPySpace).reverse.length := (List.dropWhile_sublist _).length_le
    _ = (s.dropWhile isPySpace).length := by simp
    _ ≤ s.length := (List.dropWhile_sublist _).length_le

theorem dropWhile_eq_self_of_head {q : Char → Bool} {l : List Char} {b : Char}
    (hb : l.head? = some b) (h : q b = false) : l.dropWhile q = l := by
  cases l with
  | nil => rfl
  | cons a t =>
    simp only [List.head?_cons, Option.some.injEq] at hb
    subst hb
    simp [List.dropWhile_cons, h]

theorem noEdgeSpace_head {p : List Char} (h : noEdgeSpace p = true) :
    ∃ a, p.head? = some a ∧ isPySpace a = false := by
  unfold noEdgeSpace at h
  cases hh : p.head? <;> cases hl : p.getLast? <;> simp [hh, hl] at h
  exact ⟨_, rfl, h.1⟩

theorem noEdgeSpace_last {p : List Char} (h : noEdgeSpace p = true) :
    ∃ b, p.getLast? = some b ∧ isPySpace b = false := by
  unfold noEdgeSpace at h
  cases hh : p.head? <;> cases hl : p.getLast? <;> simp [hh, hl] at h
  exact ⟨_, rfl, h.2⟩

theorem noEdgeSpace_ne_nil {p : List Char} (h : noEdgeSpace p = true) : p ≠ [] := by
  obtain ⟨a, ha, -⟩ := noEdgeSpace_head h
  cases p with
  | nil => simp at ha
  | cons c t => simp

theorem pyStrip_eq_self {p : List Char} (h : noEdgeSpace p = true) : pyStrip p = p := by
  obtain ⟨a, ha, hsa⟩ := noEdgeSpace_head h
  obtain ⟨b, hb, hsb⟩ := noEdgeSpace_last h
  unfold pyStrip
  rw [dropWhile_eq_self_of_head ha hsa]
  rw [dropWhile_eq_self_of_head (by rw [List.head?_reverse]; exact hb) hsb]
  exact List.reverse_reverse p

theorem getLast?_cons_of_ne_nil {a : Char} {t : List Char} (h : t ≠ []) :
    (a :: t).getLast? = t.getLast? := by
  cases t with
  | nil => exact absurd rfl h
  | cons b u => simp [List.getLast?_cons_cons]

theorem getLast?_dropWhile {q : Char → Bool} (l : List Char)
    (h : l.dropWhile q ≠ []) : (l.dropWhile q).getLast? = l.getLast? := by
  induction l with
  | nil => simp at h
  | cons a t ih =>
    by_cases hqa : q a = true
    · rw [List.dropWhile_cons_of_pos hqa] at h ⊢
      have ht : t ≠ [] := by
        intro he; rw [he] at h; simp at h
      rw [ih h, getLast?_cons_of_ne_nil ht]
    · rw [List.dropWhile_cons_of_neg hqa]

theorem noEdgeSpace_pyStrip {s : List Char} (h : pyStrip s ≠ []) :
    noEdgeSpace (pyStrip s) = true := by
  set u := s.dropWhile isPySpace with hu
  set v := u.reverse.dropWhile isPySpace with hv
  have hps : pyStrip s = v.reverse := rfl
  have hv_ne : v ≠ [] := by
    intro he; rw [hps, he] at h; simp at h
  have hu_ne : u.reverse ≠ [] := by
    intro he; rw [hv, he] at hv_ne; simp at hv_ne
  -- last character of pyStrip s is the head of v, which dropWhile rejects
  have hlast : (pyStrip s).getLast? = some (v.head hv_ne) := by
    rw [hps, List.getLast?_reverse, List.head?_eq_head hv_ne]
  have hlast_ok : isPySpace (v.head hv_ne) = false :=
    List.head_dropWhile_not isPySpace u.reverse hv_ne
  -- first character of pyStrip s is the last of u.reverse, i.e. the head of u
  have hu_ne' : u ≠ [] := by
    intro he; rw [he] at hu_ne; simp at hu_ne
  have hhead : (pyStrip s).head? = some (u.head hu_ne') := by
    rw [hps, List.head?_reverse, getLast?_dropWhile _ hv_ne, List.getLast?_reverse,
      List.head?_eq_head hu_ne']
  have hhead_ok : isPySpace (u.head hu_ne') = false :=
    List.head_dropWhile_not isPySpace s hu_ne'
  unfold noEdgeSpace
  rw [hhead, hlast]
  simp [hhead_ok, hlast_ok]

theorem pyStrip_idem (s : List Char) : pyStrip (pyStrip s) = pyStrip s := by
  by_cases h : pyStrip s = []
  · rw [h]; rfl
  · exact pyStrip_eq_self (noEdgeSpace_pyStrip h)

theorem splitOn2_ne_nil (s : List Char) : splitOn2 s ≠ [] := by
  induction s using splitOn2.induct with
  | case1 => simp [splitOn2.eq_1]
  | case2 rest ih => simp [splitOn2.eq_2]
  | case3 c rest hside hrec ih => rw [splitOn2.eq_3 c rest hside, hrec]; simp
  | case4 c rest hside h t hrec ih => rw [splitOn2.eq_3 c rest hside, hrec]; simp

theorem joinSep2_cons {p : List Char} {ps : List (List Char)} (h : ps ≠ []) :
    joinSep2 (p :: ps) = p ++ '\n' :: '\n' :: joinSep2 ps := by
  cases ps with
  | nil => exact absurd rfl h
  | cons q qs => rfl

theorem joinSep2_splitOn2 (s : List Char) : joinSep2 (splitOn2 s) = s := by
  induction s using splitOn2.induct with
  | case1 => rfl
  | case2 rest ih =>
    rw [splitOn2.eq_2, joinSep2_cons (splitOn2_ne_nil rest), ih]
    rfl
  | case3 c rest hside hrec ih =>
    exact absurd hrec (splitOn2_ne_nil rest)
  | case4 c rest hside h t hrec ih =>
    rw [splitOn2.eq_3 c rest hside, hrec]
    rw [hrec] at ih
    cases t with
    | nil =>
      show c :: h = c :: rest
      rw [show h = rest from ih]
    | cons t0 ts =>
      rw [joinSep2_cons (by simp)]
      rw [joinSep2_cons (by simp)] at ih
      simp only [List.cons_append]
      rw [ih]

/-! ### Lemmas about `firstPass` and the chunk joins -/

theorem noEdgeSpace_append_sep {cur p : List Char} (hc : noEdgeSpace cur = true)
    (hp : noEdgeSpace p = true) :
    noEdgeSpace (cur ++ '\n' :: '\n' :: p) = true := by
  obtain ⟨a, ha, hsa⟩ := noEdgeSpace_head hc
  obtain ⟨b, hb, hsb⟩ := noEdgeSpace_last hp
  have hpne := noEdgeSpace_ne_nil hp
  have hcur : (cur ++ '\n' :: '\n' :: p).head? = some a := by
    cases cur with
    | nil => simp at ha
    | cons x xs =>
      simp only [List.head?_cons, Option.some.injEq] at ha
      simp [ha]
  have hlastapp : (cur ++ '\n' :: '\n' :: p).getLast? = some b := by
    rw [List.getLast?_append_of_ne_nil cur (by simp)]
    rw [show ('\n' :: '\n' :: p).getLast? = p.getLast? from ?_]
    · exact hb
    · rw [getLast?_cons_of_ne_nil (by simp), getLast?_cons_of_ne_nil hpne]
  unfold noEdgeSpace
  rw [hcur, hlastapp]
  simp [hsa, hsb]

theorem firstPass_ne_nil {C : Nat} (paras : List (List Char)) :
    ∀ cur : List Char, cur ≠ [] → firstPass C paras cur ≠ [] := by
  induction paras with
  | nil =>
    intro cur hc
    simp [firstPass, List.isEmpty_iff, hc]
  | cons para rest ih =>
    intro cur hc
    have hemp : cur.isEmpty = false := by simp [List.isEmpty_iff, hc]
    unfold firstPass
    simp only [hemp, Bool.false_eq_true, if_false]
    split
    · simp
    · apply ih
      simp [hc]

theorem joinSep2_firstPass {C : Nat} (paras : List (List Char)) :
    ∀ cur : List Char, (∀ p ∈ paras, noEdgeSpace p = true) → noEdgeSpace cur = true →
    joinSep2 (firstPass C paras cur) = joinSep2 (cur :: paras) := by
  induction paras with
  | nil =>
    intro cur _ hcur
    have hc := noEdgeSpace_ne_nil hcur
    simp [firstPass, List.isEmpty_iff, hc, pyStrip_eq_self hcur, joinSep2]
  | cons para rest ih =>
    intro cur hall hcur
    have hpara : noEdgeSpace para = true := hall para (by simp)
    have hrest : ∀ p ∈ rest, noEdgeSpace p = true := fun p hp => hall p (by simp [hp])
    have hc := noEdgeSpace_ne_nil hcur
    have hemp : cur.isEmpty = false := by simp [List.isEmpty_iff, hc]
    unfold firstPass
    simp only [hemp, Bool.false_eq_true, if_false]
    split
    · rw [pyStrip_eq_self hcur,
        joinSep2_cons (firstPass_ne_nil rest para (noEdgeSpace_ne_nil hpara)),
        ih para hrest hpara, joinSep2_cons (show para :: rest ≠ [] by simp)]
    · rw [ih (cur ++ '\n' :: '\n' :: para) hrest (noEdgeSpace_append_sep hcur hpara)]
      cases rest with
      | nil => simp [joinSep2]
      | cons r rs =>
        rw [joinSep2_cons (show (para :: r :: rs : List (List Char)) ≠ [] by simp),
          joinSep2_cons (show (r :: rs : List (List Char)) ≠ [] by simp),
          joinSep2_cons (show (r :: rs : List (List Char)) ≠ [] by simp)]
        simp [List.append_assoc]

theorem firstPass_length_le {C : Nat} (paras : List (List Char)) :
    ∀ cur : List Char, (∀ p ∈ paras, p.length ≤ C) → cur.length ≤ C →
    ∀ ch ∈ firstPass C paras cur, ch.length ≤ C := by
  induction paras with
  | nil =>
    intro cur _ hcur ch hch
    unfold firstPass at hch
    split at hch
    · simp at hch
    · simp only [List.mem_singleton] at hch
      subst hch
      exact le_trans (pyStrip_length_le cur) hcur
  | cons para rest ih =>
    intro cur hall hcur ch hch
    have hpara : para.length ≤ C := hall para (by simp)
    have hrest : ∀ p ∈ rest, p.length ≤ C := fun p hp => hall p (by simp [hp])
    by_cases hemp : cur.isEmpty
    · have hnil : cur = [] := List.isEmpty_iff.mp hemp
      subst hnil
      unfold firstPass at hch
      simp only [List.isEmpty_nil, not_true, and_false, if_true, if_false] at hch
      exact ih para hrest hpara ch hch
    · have hemp' : cur.isEmpty = false := by simpa using hemp
      unfold firstPass at hch
      simp only [hemp', Bool.false_eq_true, if_false, not_false_iff, and_true] at hch
      split at hch
      · simp only [List.mem_cons] at hch
        rcases hch with rfl | hch
        · exact le_trans (pyStrip_length_le cur) hcur
        · exact ih para hrest hpara ch hch
      · rename_i hgt
        push_neg at hgt
        exact ih _ hrest hgt ch hch

/-- When every first-pass chunk fits the budget, the second pass of
`split_text_into_chunks` changes nothing. -/
theorem flatMap_id_of_le {C : Nat} (chunks : List (List Char))
    (h : ∀ ch ∈ chunks, ch.length ≤ C) :
    (chunks.flatMap fun chunk =>
      if chunk.length ≤ C then [chunk]
      else hardSplitGo C chunk.length chunk) = chunks := by
  induction chunks with
  | nil => rfl
  | cons c cs ih =>
    have hc : c.length ≤ C := h c (by simp)
    simp only [List.flatMap_cons, if_pos hc, List.singleton_append]
    rw [ih fun ch hch => h ch (by simp [hch])]

/-! ### Lemmas about the hard-split second pass -/

theorem lastNewlineIdx_lt {w : List Char} {i : Nat}
    (h : lastNewlineIdx w = some i) : i < w.length := by
  induction w generalizing i with
  | nil => simp [lastNewlineIdx] at h
  | cons c rest ih =>
    unfold lastNewlineIdx at h
    cases hr : lastNewlineIdx rest with
    | some j =>
      rw [hr] at h
      simp only [Option.some.injEq] at h
      subst h
      have := ih hr
      simp
      omega
    | none =>
      rw [hr] at h
      by_cases hc : c == '\n'
      · simp [hc] at h
        subst h
        simp
      · simp [hc] at h

theorem rawStep_le (C : Nat) (s : List Char) : rawStep C s ≤ C := by
  unfold rawStep
  cases h : lastNewlineIdx (s.take C) with
  | none => exact le_refl C
  | some i =>
    have hi : i < (s.take C).length := lastNewlineIdx_lt h
    have hiC : i < C := lt_of_lt_of_le hi (by simp [List.length_take])
    by_cases h1 : 1 ≤ i
    · simp only [h1, if_true]
      omega
    · simp only [h1, if_false]
      exact le_refl C

theorem hardSplitGo_length_le (C : Nat) :
    ∀ (fuel : Nat) (s : List Char) (ch : List Char),
    ch ∈ hardSplitGo C fuel s → ch.length ≤ C := by
  intro fuel
  induction fuel with
  | zero =>
    intro s ch hch
    cases s <;> simp [hardSplitGo] at hch
  | succ f ih =>
    intro s ch hch
    cases s with
    | nil => simp [hardSplitGo] at hch
    | cons c cs =>
      unfold hardSplitGo at hch
      split at hch
      · rename_i hle
        simp only [List.mem_singleton] at hch
        subst hch
        exact le_trans (pyStrip_length_le _) hle
      · simp only [List.mem_cons] at hch
        rcases hch with rfl | hch
        · calc (pyStrip ((c :: cs).take (rawStep C (c :: cs)))).length
              ≤ ((c :: cs).take (rawStep C (c :: cs))).length := pyStrip_length_le _
            _ ≤ rawStep C (c :: cs) := by simp [List.length_take]
            _ ≤ C := rawStep_le C (c :: cs)
        · exact ih _ ch hch

/-! ### Claims C2 and C3 — the chunker -/

/-- Claim C2, as stated, is false: chunking drops the blank-line separators
(and strips whitespace), so plain concatenation of the chunks does not
reproduce the input.  Concrete counterexample: `"a\n\nb"` with budget 1
produces chunks `["a", "b"]`, whose concatenation is `"ab"`. -/
theorem claim_C2_counterexample :
    ¬ (split_text_into_chunks ['a', '\n', '\n', 'b'] 1).flatten
      = ['a', '\n', '\n', 'b'] := by
  decide

/-- Claim C2 amended: when every blank-line paragraph of the input is
nonempty, starts and ends with non-whitespace, and fits the budget,
re-joining the produced chunks with the `"\n\n"` delimiter reproduces the
original text exactly. -/
theorem claim_C2_amended (text : List Char) (C : Nat)
    (h : ∀ p ∈ splitOn2 text, noEdgeSpace p = true ∧ p.length ≤ C) :
    joinSep2 (split_text_into_chunks text C) = text := by
  have hsplit := splitOn2_ne_nil text
  have hedge : ∀ p ∈ splitOn2 text, noEdgeSpace p = true := fun p hp => (h p hp).1
  have hlen : ∀ p ∈ splitOn2 text, p.length ≤ C := fun p hp => (h p hp).2
  unfold split_text_into_chunks
  rw [flatMap_id_of_le _ (firstPass_length_le (splitOn2 text) [] hlen (by simp))]
  cases hs : splitOn2 text with
  | nil => exact absurd hs hsplit
  | cons p ps =>
    rw [hs] at hedge
    have hp : noEdgeSpace p = true := hedge p (by simp)
    have hps : ∀ q ∈ ps, noEdgeSpace q = true := fun q hq => hedge q (by simp [hq])
    show joinSep2 (firstPass C (p :: ps) []) = text
    unfold firstPass
    simp only [List.isEmpty_nil, if_true, not_true, and_false, if_false]
    rw [joinSep2_firstPass ps p hps hp, ← hs, joinSep2_splitOn2]

/-- Witness for the amended C2 at the counterexample's input. -/
theorem claim_C2_witness :
    joinSep2 (split_text_into_chunks ['a', '\n', '\n', 'b'] 1)
      = ['a', '\n', '\n', 'b'] :=
  claim_C2_amended ['a', '\n', '\n', 'b'] 1 (by decide)

/-- Claim C3: for a chunk budget of at least 1, every chunk produced by
`split_text_into_chunks` has length at most the budget.  (The code in fact
never exceeds the budget at all: the hard split cuts even delimiter-free
runs, so the claim's allowance for long runs is not needed.) -/
theorem claim_C3 (text : List Char) (C : Nat) (_hC : 1 ≤ C) (ch : List Char)
    (hch : ch ∈ split_text_into_chunks text C) : ch.length ≤ C := by
  unfold split_text_into_chunks at hch
  simp only [List.mem_flatMap] at hch
  obtain ⟨chunk, hmem, hin⟩ := hch
  split at hin
  · rename_i hle
    simp only [List.mem_singleton] at hin
    subst hin
    exact hle
  · exact hardSplitGo_length_le C _ _ ch hin

/-- Witness for C3 on a concrete input. -/
theorem claim_C3_witness : (['a', 'b'] : List Char).length ≤ 3 :=
  claim_C3 ['a', 'b', '\n', '\n', 'c', 'd'] 3 (by decide) ['a', 'b'] (by decide)

/-! ### Lemmas about the stable descending sort -/

theorem insertDesc_perm (key : α → ℚ) (a : α) (l : List α) :
    List.Perm (insertDesc key a l) (a :: l) := by
  induction l with
  | nil => exact List.Perm.refl _
  | cons b bs ih =>
    unfold insertDesc
    split
    · exact List.Perm.refl _
    · exact (ih.cons b).trans (List.Perm.swap a b bs)

theorem sortDescBy_perm (key : α → ℚ) (l : List α) :
    List.Perm (sortDescBy key l) l := by
  induction l with
  | nil => exact List.Perm.refl _
  | cons a as ih => exact (insertDesc_perm key a _).trans (ih.cons a)

theorem insertDesc_sorted (key : α → ℚ) (a : α) (l : List α)
    (h : l.Pairwise fun x y => key y ≤ key x) :
    (insertDesc key a l).Pairwise fun x y => key y ≤ key x := by
  induction l with
  | nil => simp [insertDesc]
  | cons b bs ih =>
    rcases List.pairwise_cons.mp h with ⟨hb, hbs⟩
    unfold insertDesc
    split
    · rename_i hba
      refine List.pairwise_cons.mpr ⟨?_, h⟩
      intro y hy
      rcases List.mem_cons.mp hy with rfl | hy
      · exact hba
      · exact le_trans (hb y hy) hba
    · rename_i hba
      push_neg at hba
      refine List.pairwise_cons.mpr ⟨?_, ih hbs⟩
      intro y hy
      have hy' := (insertDesc_perm key a bs).mem_iff.mp hy
      rcases List.mem_cons.mp hy' with rfl | hy'
      · exact le_of_lt hba
      · exact hb y hy'

theorem sortDescBy_sorted (key : α → ℚ) (l : List α) :
    (sortDescBy key l).Pairwise fun x y => key y ≤ key x := by
  induction l with
  | nil => simp [sortDescBy]
  | cons a as ih => exact insertDesc_sorted key a _ ih

theorem insertDesc_front (key : α → ℚ) (a : α) (l : List α)
    (h : ∀ b ∈ l, key b ≤ key a) : insertDesc key a l = a :: l := by
  cases l with
  | nil => rfl
  | cons b bs => simp [insertDesc, h b (by simp)]

theorem filter_insertDesc_neg (key : α → ℚ) (p : α → Bool) (a : α) (l : List α)
    (hpa : p a = false) :
    (insertDesc key a l).filter p = l.filter p := by
  induction l with
  | nil => simp [insertDesc, hpa]
  | cons b bs ih =>
    unfold insertDesc
    split
    · simp [List.filter_cons, hpa]
    · simp only [List.filter_cons]
      rw [ih]

theorem insertDesc_cons_le {key : α → ℚ} {a b : α} {bs : List α}
    (h : key b ≤ key a) : insertDesc key a (b :: bs) = a :: b :: bs := by
  simp [insertDesc, h]

theorem insertDesc_cons_gt {key : α → ℚ} {a b : α} {bs : List α}
    (h : ¬key b ≤ key a) : insertDesc key a (b :: bs) = b :: insertDesc key a bs := by
  simp [insertDesc, h]

theorem filter_insertDesc_pos (key : α → ℚ) (p : α → Bool) (a : α) (l : List α)
    (hs : l.Pairwise fun x y => key y ≤ key x) (hpa : p a = true) :
    (insertDesc key a l).filter p = insertDesc key a (l.filter p) := by
  induction l with
  | nil => simp [insertDesc, hpa]
  | cons b bs ih =>
    rcases List.pairwise_cons.mp hs with ⟨hb, hbs⟩
    by_cases hba : key b ≤ key a
    · have hfront : insertDesc key a ((b :: bs).filter p) = a :: (b :: bs).filter p := by
        refine insertDesc_front key a _ ?_
        intro y hy
        have hy' := List.mem_of_mem_filter hy
        rcases List.mem_cons.mp hy' with rfl | hy'
        · exact hba
        · exact le_trans (hb y hy') hba
      rw [insertDesc_cons_le hba, hfront, List.filter_cons_of_pos hpa]
    · rw [insertDesc_cons_gt hba]
      by_cases hpb : p b = true
      · rw [List.filter_cons_of_pos hpb, List.filter_cons_of_pos hpb,
          insertDesc_cons_gt hba, ih hbs]
      · rw [List.filter_cons_of_neg (by simp [hpb]), List.filter_cons_of_neg (by simp [hpb]),
          ih hbs]

theorem filter_sortDescBy (key : α → ℚ) (p : α → Bool) (l : List α) :
    (sortDescBy key l).filter p = sortDescBy key (l.filter p) := by
  induction l with
  | nil => rfl
  | cons a as ih =>
    by_cases hpa : p a = true
    · show (insertDesc key a (sortDescBy key as)).filter p = sortDescBy key ((a :: as).filter p)
      rw [filter_insertDesc_pos key p a _ (sortDescBy_sorted key as) hpa, ih,
        List.filter_cons_of_pos hpa]
      rfl
    · have hpa' : p a = false := by simpa using hpa
      show (insertDesc key a (sortDescBy key as)).filter p = sortDescBy key ((a :: as).filter p)
      rw [filter_insertDesc_neg key p a _ hpa', ih, List.filter_cons_of_neg (by simp [hpa'])]

/-! ### Claims C4 and C8 — retrieval -/

/-- Claim C4: `retrieve_relevant_context` returns exactly the newline-join
of the texts of the at-most-`top_k` stored chunks scoring at least the
threshold, in descending score order — sorting before filtering (the
code) equals filtering before sorting (the spec), the output length never
exceeds `top_k`, every returned pair scores at least the threshold, and
the returned pairs are in descending score order. -/
theorem claim_C4 (sim : List ℚ → List ℚ → ℚ) (queryEmb : List ℚ)
    (store : List VItem) (topK : Nat) (thr : ℚ) :
    retrieve_relevant_context sim queryEmb store topK thr
        = retrieveContextSpec sim queryEmb store topK thr ∧
      (retrievedPairs sim queryEmb store topK thr).length ≤ topK ∧
      (retrievedPairs sim queryEmb store topK thr).all
        (fun pr => decide (thr ≤ pr.1)) = true ∧
      (retrievedPairs sim queryEmb store topK thr).Pairwise
        (fun x y => y.1 ≤ x.1) := by
  refine ⟨?_, ?_, ?_, ?_⟩
  · unfold retrieve_relevant_context retrieveContextSpec retrievedPairs
    rw [filter_sortDescBy]
  · exact List.length_take_le _ _
  · simp only [List.all_eq_true, decide_eq_true_eq]
    intro pr hpr
    have h1 := List.mem_of_mem_take hpr
    have h2 := List.mem_filter.mp h1
    exact of_decide_eq_true h2.2
  · unfold retrievedPairs
    exact ((sortDescBy_sorted _ _).filter _).sublist (List.take_sublist _ _)

/-- Claim C8, as stated, is false: Python's sort is stable, so two chunks
with equal similarity scores keep their insertion order, and permuting the
store permutes the returned context.  Concrete counterexample: two chunks
with the same embedding (hence the same score under any similarity
function) in the two orders. -/
theorem claim_C8_counterexample :
    ¬ (∀ (sim : List ℚ → List ℚ → ℚ) (queryEmb : List ℚ) (topK : Nat) (thr : ℚ)
        (s1 s2 : List VItem), List.Perm s1 s2 →
        retrieve_relevant_context sim queryEmb s1 topK thr
          = retrieve_relevant_context sim queryEmb s2 topK thr) := by
  intro h
  have hc := h (fun _ _ => 1) [] 2 0
    [⟨[], ['A']⟩, ⟨[], ['B']⟩] [⟨[], ['B']⟩, ⟨[], ['A']⟩]
    (List.Perm.swap (⟨[], ['B']⟩ : VItem) (⟨[], ['A']⟩ : VItem) [])
  exact absurd hc (by decide)

/-- Claim C8 amended: retrieval is insertion-order independent whenever the
stored chunks' similarity scores are pairwise distinct (no ties). -/
theorem claim_C8_amended (sim : List ℚ → List ℚ → ℚ) (queryEmb : List ℚ)
    (topK : Nat) (thr : ℚ) (s1 s2 : List VItem)
    (hperm : List.Perm s1 s2)
    (hnodup : ((scoredChunks sim queryEmb s1).map Prod.fst).Nodup) :
    retrieve_relevant_context sim queryEmb s1 topK thr
      = retrieve_relevant_context sim queryEmb s2 topK thr := by
  have hp : List.Perm (scoredChunks sim queryEmb s1) (scoredChunks sim queryEmb s2) :=
    hperm.map _
  have hperm12 : List.Perm (sortDescBy Prod.fst (scoredChunks sim queryEmb s1))
      (sortDescBy Prod.fst (scoredChunks sim queryEmb s2)) :=
    ((sortDescBy_perm _ _).trans hp).trans (sortDescBy_perm _ _).symm
  have hsym : Symmetric fun x y : ℚ × List Char => x.1 ≠ y.1 :=
    fun _ _ hxy => hxy.symm
  have hne_base1 : (scoredChunks sim queryEmb s1).Pairwise fun x y => x.1 ≠ y.1 := by
    rw [List.Nodup, List.pairwise_map] at hnodup
    exact hnodup
  have hne1 : (sortDescBy Prod.fst (scoredChunks sim queryEmb s1)).Pairwise
      fun x y => x.1 ≠ y.1 :=
    ((sortDescBy_perm _ _).pairwise_iff fun hab => hsym hab).mpr hne_base1
  have hne2 : (sortDescBy Prod.fst (scoredChunks sim queryEmb s2)).Pairwise
      fun x y => x.1 ≠ y.1 :=
    (hperm12.pairwise_iff fun hab => hsym hab).mp hne1
  have hs1 : (sortDescBy Prod.fst (scoredChunks sim queryEmb s1)).Pairwise
      fun x y => y.1 < x.1 :=
    ((sortDescBy_sorted _ _).and hne1).imp fun hxy =>
      lt_of_le_of_ne hxy.1 (Ne.symm hxy.2)
  have hs2 : (sortDescBy Prod.fst (scoredChunks sim queryEmb s2)).Pairwise
      fun x y => y.1 < x.1 :=
    ((sortDescBy_sorted _ _).and hne2).imp fun hxy =>
      lt_of_le_of_ne hxy.1 (Ne.symm hxy.2)
  haveI : IsAntisymm (ℚ × List Char) (fun x y => y.1 < x.1) :=
    ⟨fun _ _ h1 h2 => absurd (lt_trans h1 h2) (lt_irrefl _)⟩
  have hL : sortDescBy Prod.fst (scoredChunks sim queryEmb s1)
      = sortDescBy Prod.fst (scoredChunks sim queryEmb s2) :=
    List.eq_of_perm_of_sorted hperm12 hs1 hs2
  unfold retrieve_relevant_context retrievedPairs
  rw [hL]

/-- Witness for the amended C8: distinct scores, two insertion orders,
same retrieved context. -/
theorem claim_C8_witness :
    retrieve_relevant_context (fun _ e => e.headD 0) [] [⟨[1], ['A']⟩, ⟨[2], ['B']⟩] 2 0
      = retrieve_relevant_context (fun _ e => e.headD 0) [] [⟨[2], ['B']⟩, ⟨[1], ['A']⟩] 2 0 :=
  claim_C8_amended (fun _ e => e.headD 0) [] 2 0 _ _
    (List.Perm.swap (⟨[2], ['B']⟩ : VItem) (⟨[1], ['A']⟩ : VItem) []) (by decide)

/-! ### Lemmas about the crawler -/

theorem depth_mk {Url : Type} (url : Url) (info : List Char)
    (subs : List (PageRecord Url)) :
    (PageRecord.mk url info subs).depth = PageRecord.depthList subs := by
  simp [PageRecord.depth]

theorem depthList_le {Url : Type} {subs : List (PageRecord Url)} {n : Nat}
    (h : ∀ pr ∈ subs, pr.depth ≤ n) : PageRecord.depthList subs ≤ n + 1 := by
  induction subs with
  | nil => simp [PageRecord.depthList]
  | cons p ps ih =>
    simp only [PageRecord.depthList]
    refine max_le ?_ (ih fun pr hpr => h pr (by simp [hpr]))
    have := h p (by simp)
    omega

/-- Joint invariant of the crawler recursion: the visited set after a call
is exactly the (reversed) trace of newly extracted URLs on top of the
original visited set, the trace has no duplicates and is disjoint from the
original visited set, and produced record trees respect the depth budget. -/
theorem recAux_invariant {Url : Type} [DecidableEq Url] (w : Web Url) :
    ∀ fuel : Nat,
      (∀ (url : Url) (visited : List Url),
        (recExtractAux w fuel url visited).2.1
            = (recExtractAux w fuel url visited).2.2.reverse ++ visited ∧
          (recExtractAux w fuel url visited).2.2.Nodup ∧
          (∀ u ∈ (recExtractAux w fuel url visited).2.2, u ∉ visited) ∧
          depthOpt (recExtractAux w fuel url visited).1 ≤ fuel) ∧
      (∀ (base : Url) (hrefs visited : List Url),
        (recChildrenAux w fuel base hrefs visited).2.1
            = (recChildrenAux w fuel base hrefs visited).2.2.reverse ++ visited ∧
          (recChildrenAux w fuel base hrefs visited).2.2.Nodup ∧
          (∀ u ∈ (recChildrenAux w fuel base hrefs visited).2.2, u ∉ visited) ∧
          (∀ pr ∈ (recChildrenAux w fuel base hrefs visited).1, pr.depth ≤ fuel)) := by
  have hchild : ∀ fuel : Nat,
      (∀ (url : Url) (visited : List Url),
        (recExtractAux w fuel url visited).2.1
            = (recExtractAux w fuel url visited).2.2.reverse ++ visited ∧
          (recExtractAux w fuel url visited).2.2.Nodup ∧
          (∀ u ∈ (recExtractAux w fuel url visited).2.2, u ∉ visited) ∧
          depthOpt (recExtractAux w fuel url visited).1 ≤ fuel) →
      ∀ (base : Url) (hrefs visited : List Url),
        (recChildrenAux w fuel base hrefs visited).2.1
            = (recChildrenAux w fuel base hrefs visited).2.2.reverse ++ visited ∧
          (recChildrenAux w fuel base hrefs visited).2.2.Nodup ∧
          (∀ u ∈ (recChildrenAux w fuel base hrefs visited).2.2, u ∉ visited) ∧
          (∀ pr ∈ (recChildrenAux w fuel base hrefs visited).1, pr.depth ≤ fuel) := by
    intro fuel hP base hrefs
    induction hrefs with
    | nil =>
      intro visited
      unfold recChildrenAux
      refine ⟨by simp, by simp, by simp, by simp⟩
    | cons href rest ih =>
      intro visited
      unfold recChildrenAux
      by_cases hcond : w.netloc (w.join base href) = w.netloc base ∧
          w.join base href ∉ visited
      · simp only [if_pos hcond]
        obtain ⟨hA1, hN1, hD1, hDep1⟩ := hP (w.join base href) visited
        obtain ⟨hA2, hN2, hD2, hDep2⟩ :=
          ih (recExtractAux w fuel (w.join base href) visited).2.1
        refine ⟨?_, ?_, ?_, ?_⟩
        · rw [hA2, hA1, List.reverse_append, List.append_assoc]
        · rw [List.nodup_append]
          refine ⟨hN1, hN2, ?_⟩
          intro u hu1 hu2
          have := hD2 u hu2
          rw [hA1] at this
          simp only [List.mem_append, List.mem_reverse] at this
          exact this (Or.inl hu1)
        · intro u hu
          rcases List.mem_append.mp hu with hu | hu
          · exact hD1 u hu
          · intro hvis
            have := hD2 u hu
            rw [hA1] at this
            simp only [List.mem_append] at this
            exact this (Or.inr hvis)
        · intro pr hpr
          cases hres : (recExtractAux w fuel (w.join base href) visited).1 with
          | none =>
            rw [hres] at hpr
            exact hDep2 pr hpr
          | some pr0 =>
            rw [hres] at hpr
            rcases List.mem_cons.mp hpr with rfl | hpr
            · have := hDep1
              rw [hres] at this
              exact this
            · exact hDep2 pr hpr
      · simp only [if_neg hcond]
        exact ih visited
  intro fuel
  induction fuel with
  | zero =>
    have hP : ∀ (url : Url) (visited : List Url),
        (recExtractAux w 0 url visited).2.1
            = (recExtractAux w 0 url visited).2.2.reverse ++ visited ∧
          (recExtractAux w 0 url visited).2.2.Nodup ∧
          (∀ u ∈ (recExtractAux w 0 url visited).2.2, u ∉ visited) ∧
          depthOpt (recExtractAux w 0 url visited).1 ≤ 0 := by
      intro url visited
      unfold recExtractAux
      by_cases hv : url ∈ visited
      · simp [hv, depthOpt]
      · simp only [if_neg hv]
        refine ⟨by simp, by simp, ?_, ?_⟩
        · intro u hu
          simp only [List.mem_singleton] at hu
          subst hu
          exact hv
        · simp [depthOpt, depth_mk, PageRecord.depthList]
    exact ⟨hP, hchild 0 hP⟩
  | succ f ihf =>
    have hQf := hchild f ihf.1
    have hP : ∀ (url : Url) (visited : List Url),
        (recExtractAux w (f + 1) url visited).2.1
            = (recExtractAux w (f + 1) url visited).2.2.reverse ++ visited ∧
          (recExtractAux w (f + 1) url visited).2.2.Nodup ∧
          (∀ u ∈ (recExtractAux w (f + 1) url visited).2.2, u ∉ visited) ∧
          depthOpt (recExtractAux w (f + 1) url visited).1 ≤ f + 1 := by
      intro url visited
      unfold recExtractAux
      by_cases hv : url ∈ visited
      · simp [hv, depthOpt]
      · simp only [if_neg hv]
        cases hsoup : w.soup url with
        | none =>
          refine ⟨by simp, by simp, ?_, ?_⟩
          · intro u hu
            simp only [List.mem_singleton] at hu
            subst hu
            exact hv
          · simp [depthOpt, depth_mk, PageRecord.depthList]
        | some hrefs =>
          obtain ⟨hA, hN, hD, hDep⟩ := hQf url hrefs (url :: visited)
          refine ⟨?_, ?_, ?_, ?_⟩
          · rw [hA]
            simp [List.append_assoc]
          · rw [List.nodup_cons]
            refine ⟨?_, hN⟩
            intro hmem
            exact hD url hmem (by simp)
          · intro u hu
            rcases List.mem_cons.mp hu with rfl | hu
            · exact hv
            · intro hvis
              exact hD u hu (by simp [hvis])
          · simp only [depthOpt, depth_mk]
            exact depthList_le hDep
    exact ⟨hP, hchild (f + 1) hP⟩

/-! ### Claims C1 and C10 — the recursive crawler -/

/-- Claim C1: one crawl invocation with a fresh visited set extracts each
reachable URL at most once (the trace of `extract_article_content`
invocations has no duplicates), and the resulting record tree's depth
never exceeds the depth bound `D`. -/
theorem claim_C1 {Url : Type} [DecidableEq Url] (w : Web Url) (url : Url) (D : Nat) :
    (recursive_extract w url 0 D []).2.2.Nodup ∧
      depthOpt (recursive_extract w url 0 D []).1 ≤ D := by
  have h := (recAux_invariant w (D - 0)).1 url ([] : List Url)
  unfold recursive_extract
  refine ⟨h.2.1, ?_⟩
  have := h.2.2.2
  omega

/-- Claim C10: when the URL is already in the visited set,
`recursive_extract` returns `None`, performs no extraction (empty trace),
and leaves the visited set exactly as it was. -/
theorem claim_C10 {Url : Type} [DecidableEq Url] (w : Web Url) (url : Url)
    (currentDepth maxDepth : Nat) (visited : List Url) (h : url ∈ visited) :
    recursive_extract w url currentDepth maxDepth visited = (none, visited, []) := by
  unfold recursive_extract recExtractAux
  simp [h]

/-- Witness for C10 at a concrete already-visited URL. -/
theorem claim_C10_witness :
    recursive_extract
        (⟨fun _ => [], fun _ => none, fun _ href => href, fun _ => []⟩ : Web Nat)
        5 0 3 [5]
      = (none, [5], []) :=
  claim_C10 _ 5 0 3 [5] (by decide)

/-! ### Claim C6 — 403 falls through to the JS fallback -/

/-- Claim C6: on a Stage-1 status of 403, `extract_article_content`
returns whatever the JS fallback stage produces — its record list on
success, and an inline error record if the fallback itself raises.  In
all cases the function returns a record list; no exception propagates
(the model is a total function). -/
theorem claim_C6 (url : List Char) (r : PageResp)
    (js : Except (List Char) (List ArticleRecord)) (h403 : r.status = 403) :
    extract_article_content url (.ok r) js
      = match js with
        | .ok recs => recs
        | .error e => [.err url e] := by
  unfold extract_article_content
  simp [h403]

/-- Witness for C6: a concrete 403 response dispatches to the JS result. -/
theorem claim_C6_witness :
    extract_article_content ['u'] (.ok ⟨403, [], []⟩)
        (.ok [ArticleRecord.page ['u'] ['t'] ['c']])
      = [ArticleRecord.page ['u'] ['t'] ['c']] :=
  claim_C6 ['u'] ⟨403, [], []⟩ (.ok [ArticleRecord.page ['u'] ['t'] ['c']]) rfl

/-! ### Claim C7 — when the rendered fetch is attempted -/

/-- Claim C7, as stated, is false: when Stage 1 raises, the code stores the
message `f"Error fetching {url}: {e}"` in `extracted_text`, and the
Selenium stage is gated only on `len(extracted_text) < 100` — so a raised
fetch with a long URL produces a message of 100+ characters and the
rendered fetch is skipped. -/
theorem claim_C7_counterexample :
    ¬ (∀ url e : List Char, seleniumAttempted url (Except.error e) = true) := by
  intro h
  exact absurd (h (List.replicate 100 'a') ['x']) (by decide)

/-- Claim C7 amended: the rendered fetch is attempted exactly when the
Stage-1 `extracted_text` is under 100 characters — always on a non-200
status, on a 200 iff title plus paragraph text is short, and on a raised
fetch iff the formatted error message (17 characters of fixed text plus
the URL and the exception text) is short. -/
theorem claim_C7_amended (url : List Char) (resp : CrawlResp) (e : List Char) :
    (resp.status ≠ 200 → seleniumAttempted url (.ok resp) = true) ∧
    (resp.status = 200 →
      (seleniumAttempted url (.ok resp) = true ↔
        (resp.title ++ '\n' :: joinNL resp.paragraphs).length < 100)) ∧
    (seleniumAttempted url (.error e) = true ↔ url.length + e.length + 17 < 100) := by
  refine ⟨?_, ?_, ?_⟩
  · intro h
    simp [seleniumAttempted, stage1Text, h]
  · intro h
    simp [seleniumAttempted, stage1Text, h]
  · have h15 : ("Error fetching ".toList).length = 15 := by decide
    have h2 : (": ".toList).length = 2 := by decide
    simp only [seleniumAttempted, stage1Text, List.length_append, h15, h2,
      decide_eq_true_eq]
    omega

/-- Witness for the amended C7: a 403 response triggers the rendered fetch. -/
theorem claim_C7_witness :
    seleniumAttempted ['u'] (Except.ok ⟨403, [], []⟩) = true :=
  (claim_C7_amended ['u'] ⟨403, [], []⟩ []).1 (by decide)

/-! ### Claim C5 — the debug-port pool -/

/-- Claim C5 is violated by the code: the port checked out of the FIFO pool
is returned only on the normal path (`driver.quit()` followed by
`port_queue.put`); when the browser block raises — for example when
`webdriver.Chrome` fails to start — the `except` handler swallows the
exception without returning the port, so the pool's total port count
drops.  The success path does preserve the pool. -/
theorem claim_C5_port_leak :
    (seleniumFallbackPool true [9222]).length ≠ ([9222] : List Nat).length ∧
      seleniumFallbackPool false [9222] = [9222] := by
  decide

/-! ### Claim C9 — PDF native-text acceptance -/

/-- Claim C9: the PDF pipeline returns the native text-layer result iff the
stripped accumulated page text is longer than 50 characters and its
alphanumeric ratio exceeds 0.1 (`10 * alnum > length` over exact
rationals); in every other case it returns the OCR stage's output. -/
theorem claim_C9 (pages : List (List Char)) (ocr : List Char) :
    (50 < (pyStrip (nativeRaw pages)).length ∧
        (pyStrip (nativeRaw pages)).length < 10 * alnumCount (pyStrip (nativeRaw pages)) →
      extract_text_from_pdf_url pages ocr = pyStrip (nativeRaw pages)) ∧
    (¬(50 < (pyStrip (nativeRaw pages)).length ∧
        (pyStrip (nativeRaw pages)).length < 10 * alnumCount (pyStrip (nativeRaw pages))) →
      extract_text_from_pdf_url pages ocr = ocr) := by
  have hvalid : is_text_valid (pyStrip (nativeRaw pages))
      = (if (pyStrip (nativeRaw pages)).length = 0 then false
        else decide ((pyStrip (nativeRaw pages)).length
          < 10 * alnumCount (pyStrip (nativeRaw pages)))) := by
    unfold is_text_valid
    rw [pyStrip_idem]
  constructor
  · intro h
    have hne : (pyStrip (nativeRaw pages)).length ≠ 0 := by omega
    have hv : is_text_valid (pyStrip (nativeRaw pages)) = true := by
      rw [hvalid, if_neg hne]
      exact decide_eq_true h.2
    have hnative : extract_native_text_from_pdf_bytes pages = pyStrip (nativeRaw pages) := by
      unfold extract_native_text_from_pdf_bytes
      rw [if_pos]
      exact ⟨by simp [List.isEmpty_iff, List.length_eq_zero] at hne ⊢; intro hx; rw [hx] at hne; simp at hne, h.1, hv⟩
    unfold extract_text_from_pdf_url
    rw [hnative, if_pos]
    exact ⟨by simp [List.isEmpty_iff]; intro hx; rw [hx] at hne; simp at hne, h.1, hv⟩
  · intro h
    have hnative : extract_native_text_from_pdf_bytes pages = [] := by
      unfold extract_native_text_from_pdf_bytes
      rw [if_neg]
      intro ⟨h1, h2, h3⟩
      rw [hvalid] at h3
      split at h3
      · simp at h3
      · exact h ⟨h2, of_decide_eq_true h3⟩
    unfold extract_text_from_pdf_url
    rw [hnative, if_neg]
    intro ⟨h1, _, _⟩
    simp at h1

/-- Witness for C9: no native text at all falls back to the OCR result. -/
theorem claim_C9_witness : extract_text_from_pdf_url [] ['z'] = ['z'] :=
  (claim_C9 [] ['z']).2 (by decide)
